import Mathlib

/-!
Verification of `san/train.py` (SemEval-2019 Task 3 training harness).

Shallow embedding: the per-run state manipulated by `train`, `predict`,
`submission` and `build_sswe_vectors` is modelled with explicit state
passing.  Validation F1 / accuracy values are rationals; gradient vectors
and logits are real vectors (the source computes with floats; softmax and
the Euclidean norm need `exp` and `sqrt`).
-/

namespace SanTrain

/-! ## Checkpoint-selection fold (train.py lines 60-63 and 115-131)

`train` keeps `max_dev_f1` (initialized to 0) and `best_model`
(initialized to `None`); on each validation result `dev_f1` it executes
`if dev_f1 > max_dev_f1: max_dev_f1 = dev_f1; best_model =
copy.deepcopy(model.state_dict())`.  Here the deep-copied snapshot is
represented by the 1-based index of the validation that produced it. -/

structure ValState where
  maxDevF1 : ℚ
  bestIdx : Option ℕ
  deriving Repr, DecidableEq

/-- One pass over the list of validation F1 results, carrying the 1-based
index `k` of the next validation; embeds the `if dev_f1 > max_dev_f1`
branch of the training loop. -/
def runValsAux (k : ℕ) (s : ValState) : List ℚ → ValState
  | [] => s
  | f1 :: rest =>
      runValsAux (k + 1) (if s.maxDevF1 < f1 then ⟨f1, some k⟩ else s) rest

/-- Final `(max_dev_f1, best_model)` state of the training loop, as a
function of the sequence of validation F1 results of the run. -/
def runVals (f1s : List ℚ) : ValState :=
  runValsAux 1 ⟨0, none⟩ f1s

/-- The 1-based indices of the validations at which the snapshot branch
fires, computed by the same running comparison the source performs. -/
def triggersAux (k : ℕ) (m : ℚ) : List ℚ → List ℕ
  | [] => []
  | f1 :: rest =>
      if m < f1 then k :: triggersAux (k + 1) f1 rest
      else triggersAux (k + 1) m rest

/-- Indices (1-based) of the validations after which `best_model` is
replaced, for a run whose validation F1 results are `f1s`. -/
def triggers (f1s : List ℚ) : List ℕ :=
  triggersAux 1 0 f1s

/-- The value `torch.save` receives in `main` (train.py line 275): the
`best_model` component returned by `train`, saved unconditionally. -/
def savedArtifact (f1s : List ℚ) : Option ℕ :=
  (runVals f1s).bestIdx

/-! ### Fold lemmas -/

theorem foldl_max_le_init {α : Type} [LinearOrder α] :
    ∀ (l : List α) (a : α), a ≤ l.foldl max a := by
  intro l
  induction l with
  | nil => intro a; exact le_refl a
  | cons x xs ih =>
      intro a
      exact le_trans (le_max_left a x) (ih (max a x))

theorem mem_le_foldl_max {α : Type} [LinearOrder α] :
    ∀ (l : List α) (a y : α), y ∈ l → y ≤ l.foldl max a := by
  intro l
  induction l with
  | nil => intro a y hy; cases hy
  | cons x xs ih =>
      intro a y hy
      rcases List.mem_cons.mp hy with h | h
      · subst h
        exact le_trans (le_max_right a y) (foldl_max_le_init xs (max a y))
      · exact ih (max a x) y h

theorem foldl_max_lt_iff {α : Type} [LinearOrder α] :
    ∀ (l : List α) (a x : α), l.foldl max a < x ↔ a < x ∧ ∀ y ∈ l, y < x := by
  intro l
  induction l with
  | nil =>
      intro a x
      constructor
      · intro h; exact ⟨h, by intro y hy; cases hy⟩
      · intro h; exact h.1
  | cons z zs ih =>
      intro a x
      constructor
      · intro h
        rcases (ih (max a z) x).mp h with ⟨hmax, hall⟩
        refine ⟨lt_of_le_of_lt (le_max_left a z) hmax, ?_⟩
        intro y hy
        rcases List.mem_cons.mp hy with h1 | h1
        · subst h1; exact lt_of_le_of_lt (le_max_right a y) hmax
        · exact hall y h1
      · intro h
        refine (ih (max a z) x).mpr ⟨?_, ?_⟩
        · exact max_lt h.1 (h.2 z (List.mem_cons_self z zs))
        · intro y hy; exact h.2 y (List.mem_cons.mpr (Or.inr hy))

theorem foldl_max_of_le {α : Type} [LinearOrder α] :
    ∀ (l : List α) (a : α), (∀ y ∈ l, y ≤ a) → l.foldl max a = a := by
  intro l
  induction l with
  | nil => intro a _; rfl
  | cons x xs ih =>
      intro a h
      have hx : max a x = a := max_eq_left (h x (List.mem_cons_self x xs))
      simp only [List.foldl_cons, hx]
      exact ih a fun y hy => h y (List.mem_cons.mpr (Or.inr hy))

/-- The combined fold of `train`'s checkpoint state equals the running
maximum together with the last firing index. -/
theorem runValsAux_eq :
    ∀ (f1s : List ℚ) (k : ℕ) (m : ℚ) (bi : Option ℕ),
      runValsAux k ⟨m, bi⟩ f1s =
        ⟨f1s.foldl max m,
         (triggersAux k m f1s).foldl (fun _ n => some n) bi⟩ := by
  intro f1s
  induction f1s with
  | nil => intro k m bi; rfl
  | cons f1 rest ih =>
      intro k m bi
      by_cases h : m < f1
      · have hmax : max m f1 = f1 := max_eq_right (le_of_lt h)
        simp only [runValsAux, triggersAux, if_pos h, List.foldl_cons, hmax]
        exact ih (k + 1) f1 (some k)
      · have hmax : max m f1 = m := max_eq_left (le_of_not_lt h)
        simp only [runValsAux, triggersAux, if_neg h, List.foldl_cons, hmax]
        exact ih (k + 1) m bi

theorem foldl_some_eq_getLast? :
    ∀ (l : List ℕ), l ≠ [] → ∀ (b : Option ℕ),
      l.foldl (fun _ n => some n) b = l.getLast? := by
  intro l
  induction l with
  | nil => intro h; exact absurd rfl h
  | cons a t ih =>
      intro _ b
      cases t with
      | nil => rfl
      | cons c t' =>
          have := ih (by simp) (some a)
          simp only [List.foldl_cons] at this ⊢
          rw [this, List.getLast?_cons_cons]

theorem triggersAux_eq_nil :
    ∀ (f1s : List ℚ) (k : ℕ) (m : ℚ), (∀ x ∈ f1s, x ≤ m) →
      triggersAux k m f1s = [] := by
  intro f1s
  induction f1s with
  | nil => intro k m _; rfl
  | cons f1 rest ih =>
      intro k m h
      have h1 : ¬ m < f1 := not_lt.mpr (h f1 (List.mem_cons_self f1 rest))
      simp only [triggersAux, if_neg h1]
      exact ih (k + 1) m fun x hx => h x (List.mem_cons.mpr (Or.inr hx))

/-- Membership in the trigger list: validation `k0 + j` fires exactly when
its F1 value strictly exceeds the running maximum (seeded with `m`) of all
earlier values. -/
theorem triggersAux_mem :
    ∀ (f1s : List ℚ) (k0 : ℕ) (m : ℚ) (n : ℕ),
      n ∈ triggersAux k0 m f1s ↔
        ∃ j, j < f1s.length ∧ n = k0 + j ∧
          (f1s.take j).foldl max m < f1s.getD j 0 := by
  intro f1s
  induction f1s with
  | nil =>
      intro k0 m n
      simp [triggersAux]
  | cons f1 rest ih =>
      intro k0 m n
      have hsplit :
          (∃ j, j < (f1 :: rest).length ∧ n = k0 + j ∧
              ((f1 :: rest).take j).foldl max m < (f1 :: rest).getD j 0) ↔
            ((m < f1 ∧ n = k0) ∨
              (∃ j', j' < rest.length ∧ n = (k0 + 1) + j' ∧
                (rest.take j').foldl max (max m f1) < rest.getD j' 0)) := by
        constructor
        · rintro ⟨j, hj, hn, hlt⟩
          cases j with
          | zero =>
              left
              refine ⟨by simpa using hlt, by simpa using hn⟩
          | succ j' =>
              right
              refine ⟨j', by simpa using hj, by omega, ?_⟩
              simpa [List.take_succ_cons, List.foldl_cons] using hlt
        · rintro (⟨hm, hn⟩ | ⟨j', hj', hn, hlt⟩)
          · exact ⟨0, by simp, by simpa using hn, by simpa using hm⟩
          · refine ⟨j' + 1, by simpa using hj', by omega, ?_⟩
            simpa [List.take_succ_cons, List.foldl_cons] using hlt
      rw [hsplit]
      by_cases h : m < f1
      · have hmax : max m f1 = f1 := max_eq_right (le_of_lt h)
        simp only [triggersAux, if_pos h, List.mem_cons, ih, hmax]
        constructor
        · rintro (rfl | hr)
          · exact Or.inl ⟨h, rfl⟩
          · exact Or.inr hr
        · rintro (⟨_, rfl⟩ | hr)
          · exact Or.inl rfl
          · exact Or.inr hr
      · have hmax : max m f1 = m := max_eq_left (le_of_not_lt h)
        simp only [triggersAux, if_neg h, ih, hmax]
        constructor
        · intro hr; exact Or.inr hr
        · rintro (⟨hm, _⟩ | hr)
          · exact absurd hm h
          · exact hr

theorem forall_mem_take_iff (l : List ℚ) (k : ℕ) (hk : k ≤ l.length) (x : ℚ) :
    (∀ y ∈ l.take k, y < x) ↔ ∀ j, j < k → l.getD j 0 < x := by
  constructor
  · intro h j hj
    have hjl : j < l.length := lt_of_lt_of_le hj hk
    have hjt : j < (l.take k).length := by
      simp only [List.length_take]
      omega
    have hEq : (l.take k).getD j 0 = l.getD j 0 := by
      rw [List.getD_eq_getElem _ _ hjt, List.getD_eq_getElem _ _ hjl]
      exact List.getElem_take l
    have hmem : (l.take k).getD j 0 ∈ l.take k := by
      rw [List.getD_eq_getElem _ _ hjt]
      exact List.getElem_mem hjt
    rw [← hEq]
    exact h _ hmem
  · intro h y hy
    obtain ⟨j, hj, rfl⟩ := List.mem_iff_getElem.mp hy
    have hjk : j < k := by
      have := hj
      simp only [List.length_take] at this
      omega
    have hjl : j < l.length := lt_of_lt_of_le hjk hk
    have hEq : (l.take k)[j] = l.getD j 0 := by
      rw [List.getD_eq_getElem _ _ hjl]
      exact List.getElem_take l
    rw [hEq]
    exact h j hjk

/-- C1: the best-checkpoint snapshot is updated if and only if a validation
F1 value strictly exceeds every previous validation F1 value of the run
(with the best-F1 variable initialized to zero): exactly the strict running
maxima trigger a snapshot; on `[0.2, 0.5, 0.3, 0.6]` the snapshot is taken
after validations 1, 2 and 4 only; and the snapshot held after the final
validation (the last trigger) is the `best_model` value returned by
`train`. -/
theorem checkpoint_snapshot_iff_running_max (f1s : List ℚ) :
    (∀ k, (k + 1) ∈ triggers f1s ↔
        (k < f1s.length ∧ 0 < f1s.getD k 0 ∧
          ∀ j, j < k → f1s.getD j 0 < f1s.getD k 0))
    ∧ triggers [2/10, 5/10, 3/10, 6/10] = [1, 2, 4]
    ∧ (runVals f1s).bestIdx = (triggers f1s).getLast?
    ∧ (runVals f1s).maxDevF1 = f1s.foldl max 0 := by
  refine ⟨?_, by norm_num [triggers, triggersAux], ?_, ?_⟩
  · intro k
    rw [triggers, triggersAux_mem]
    constructor
    · rintro ⟨j, hj, hkj, hlt⟩
      have hjk : j = k := by omega
      subst hjk
      have hk : j ≤ f1s.length := le_of_lt hj
      rcases (foldl_max_lt_iff (f1s.take j) 0 _).mp hlt with ⟨h0, hall⟩
      exact ⟨hj, h0, (forall_mem_take_iff f1s j hk _).mp hall⟩
    · rintro ⟨hk, h0, hprev⟩
      refine ⟨k, hk, by omega, ?_⟩
      exact (foldl_max_lt_iff (f1s.take k) 0 _).mpr
        ⟨h0, (forall_mem_take_iff f1s k (le_of_lt hk) _).mpr hprev⟩
  · rw [runVals, runValsAux_eq]
    simp only [triggers]
    rcases heq : triggersAux 1 0 f1s with _ | ⟨t, ts⟩
    · rfl
    · exact foldl_some_eq_getLast? (t :: ts) (by simp) none
  · rw [runVals, runValsAux_eq]

/-- C9: if no validation F1 of the run is strictly positive (in particular
if validation never fires), `train` returns `best_model = None` together
with `max_dev_f1 = 0`, and `main` passes that `None` on to `torch.save` as
the checkpoint artifact. -/
theorem train_no_improvement_returns_none (f1s : List ℚ)
    (h : ∀ x ∈ f1s, x ≤ 0) :
    runVals f1s = ⟨0, none⟩ ∧ savedArtifact f1s = none := by
  have ht : triggersAux 1 0 f1s = [] := triggersAux_eq_nil f1s 1 0 h
  have hmax : f1s.foldl max 0 = 0 := foldl_max_of_le f1s 0 h
  constructor
  · rw [runVals, runValsAux_eq, ht, hmax]
    rfl
  · rw [savedArtifact, runVals, runValsAux_eq, ht, hmax]
    rfl

theorem train_no_improvement_returns_none_witness :
    (∀ x ∈ ([0, 0] : List ℚ), x ≤ 0) ∧
      (runVals [0, 0] = ⟨0, none⟩ ∧ savedArtifact [0, 0] = none) :=
  ⟨by decide, train_no_improvement_returns_none [0, 0] (by decide)⟩

/-! ## Reporting-window accumulation (train.py lines 60, 70, 97, 103-113)

`train` accumulates `loss += batch_loss.item()`, `acc += (pred ==
batch.label).sum()`, `size += len(pred)` per batch and, when `(i + 1) %
print_every == 0` (with `i` the per-epoch `enumerate` counter), emits
`(loss, acc / size)` to the scalar writer and zeroes the three
accumulators.  The accumulators are initialized once, before the epoch
loop, and are never reset at an epoch boundary. -/

structure TrainBatch where
  loss : ℚ
  correct : ℚ
  size : ℚ
  deriving Repr, DecidableEq

structure MetricAcc where
  acc : ℚ
  loss : ℚ
  size : ℚ
  reports : List (ℚ × ℚ)
  deriving Repr, DecidableEq

/-- State of the accumulators at train.py line 60: `acc, loss, size = 0, 0,
0`, with no report emitted yet. -/
def metricInit : MetricAcc := ⟨0, 0, 0, []⟩

/-- One training step's effect on the accumulators: the body of the batch
loop at lines 97, 103-113.  `i` is the per-epoch `enumerate` counter. -/
def stepBatch (pe : ℕ) (i : ℕ) (s : MetricAcc) (b : TrainBatch) : MetricAcc :=
  let acc := s.acc + b.correct
  let loss := s.loss + b.loss
  let size := s.size + b.size
  if (i + 1) % pe = 0 then
    ⟨0, 0, 0, s.reports ++ [(loss, acc / size)]⟩
  else
    ⟨acc, loss, size, s.reports⟩

/-- The inner `for i, batch in enumerate(iterator)` loop. -/
def loopBatches (pe : ℕ) : ℕ → MetricAcc → List TrainBatch → MetricAcc
  | _, s, [] => s
  | i, s, b :: bs => loopBatches pe (i + 1) (stepBatch pe i s b) bs

/-- One epoch: the enumerate counter restarts at 0, the accumulators do
not. -/
def runEpoch (pe : ℕ) (s : MetricAcc) (batches : List TrainBatch) : MetricAcc :=
  loopBatches pe 0 s batches

/-- The `for epoch in range(args.max_epoch)` loop, restricted to its
metric bookkeeping. -/
def runEpochs (pe : ℕ) (s : MetricAcc) (epochs : List (List TrainBatch)) :
    MetricAcc :=
  epochs.foldl (runEpoch pe) s

def sumLoss (l : List TrainBatch) : ℚ := (l.map TrainBatch.loss).sum

def sumCorrect (l : List TrainBatch) : ℚ := (l.map TrainBatch.correct).sum

def sumSize (l : List TrainBatch) : ℚ := (l.map TrainBatch.size).sum

/-- What one full reporting window contributes to the writer, starting
from zeroed accumulators: the summed loss and the ratio
correct-predictions / total-predictions. -/
def windowReport (w : List TrainBatch) : ℚ × ℚ :=
  (sumLoss w, sumCorrect w / sumSize w)

/-- The successive complete windows of `pe` batches, the remainder
dropped. -/
def chunks {α : Type} (pe : ℕ) (l : List α) : List (List α) :=
  if _h : 0 < pe ∧ pe ≤ l.length then
    l.take pe :: chunks pe (l.drop pe)
  else []
termination_by l.length
decreasing_by
  simp only [List.length_drop]
  omega

/-- The trailing batches that do not fill a complete window. -/
def leftover {α : Type} (pe : ℕ) (l : List α) : List α :=
  l.drop (pe * (l.length / pe))

theorem sumLoss_append (xs ys : List TrainBatch) :
    sumLoss (xs ++ ys) = sumLoss xs + sumLoss ys := by
  simp [sumLoss]

theorem sumCorrect_append (xs ys : List TrainBatch) :
    sumCorrect (xs ++ ys) = sumCorrect xs + sumCorrect ys := by
  simp [sumCorrect]

theorem sumSize_append (xs ys : List TrainBatch) :
    sumSize (xs ++ ys) = sumSize xs + sumSize ys := by
  simp [sumSize]

theorem add_mod_eq (i j pe : ℕ) (hi : i % pe = 0) : (i + j) % pe = j % pe := by
  rw [Nat.add_mod, hi, Nat.zero_add]
  exact Nat.mod_mod_of_dvd j dvd_rfl

/-- A block of batches none of which reaches a reporting boundary only
accumulates. -/
theorem loopBatches_no_report (pe : ℕ) :
    ∀ (bs : List TrainBatch) (i : ℕ) (s : MetricAcc),
      (∀ j, j < bs.length → (i + j + 1) % pe ≠ 0) →
      loopBatches pe i s bs =
        ⟨s.acc + sumCorrect bs, s.loss + sumLoss bs, s.size + sumSize bs,
         s.reports⟩ := by
  intro bs
  induction bs with
  | nil =>
      intro i s _
      cases s
      simp [loopBatches, sumLoss, sumCorrect, sumSize]
  | cons b rest ih =>
      intro i s h
      have h0 : (i + 1) % pe ≠ 0 := by
        have := h 0 (by simp)
        simpa using this
      have hstep : stepBatch pe i s b =
          ⟨s.acc + b.correct, s.loss + b.loss, s.size + b.size, s.reports⟩ := by
        simp [stepBatch, if_neg h0]
      have hrest : ∀ j, j < rest.length → (i + 1 + j + 1) % pe ≠ 0 := by
        intro j hj
        have := h (j + 1) (by simpa using Nat.succ_lt_succ hj)
        have harr : i + (j + 1) + 1 = i + 1 + j + 1 := by omega
        rwa [harr] at this
      simp only [loopBatches, hstep]
      rw [ih (i + 1) _ hrest]
      simp [sumLoss, sumCorrect, sumSize]
      constructor
      · ring
      · constructor
        · ring
        · ring

/-- Splitting the batch loop. -/
theorem loopBatches_append (pe : ℕ) :
    ∀ (xs ys : List TrainBatch) (i : ℕ) (s : MetricAcc),
      loopBatches pe i s (xs ++ ys) =
        loopBatches pe (i + xs.length) (loopBatches pe i s xs) ys := by
  intro xs
  induction xs with
  | nil => intro ys i s; simp [loopBatches]
  | cons x xs ih =>
      intro ys i s
      simp only [List.cons_append, loopBatches, List.length_cons, List.append_eq]
      rw [ih ys (i + 1) (stepBatch pe i s x)]
      congr 1
      omega

/-- Processing one complete window of `pe` batches from any window-aligned
position emits exactly one report, combining whatever the accumulators
already held with the window's sums, and zeroes the accumulators. -/
theorem loopBatches_full_window (pe : ℕ) (hpe : 0 < pe)
    (ws : List TrainBatch) (hw : ws.length = pe) (i : ℕ) (hi : i % pe = 0)
    (s : MetricAcc) :
    loopBatches pe i s ws =
      ⟨0, 0, 0, s.reports ++
        [(s.loss + sumLoss ws,
          (s.acc + sumCorrect ws) / (s.size + sumSize ws))]⟩ := by
  rcases List.eq_nil_or_concat ws with hnil | ⟨ys, z, hcc⟩
  · subst hnil
    simp at hw
    omega
  case inr =>
    rcases hcc with rfl
    simp only [List.concat_eq_append] at hw ⊢
    have hys : ys.length = pe - 1 := by
      simp only [List.length_append, List.length_cons, List.length_nil] at hw
      omega
    rw [loopBatches_append]
    have hA : loopBatches pe i s ys =
        ⟨s.acc + sumCorrect ys, s.loss + sumLoss ys, s.size + sumSize ys,
         s.reports⟩ := by
      apply loopBatches_no_report
      intro j hj
      have hj' : j + 1 < pe := by omega
      have harr : (i + j + 1) % pe = (j + 1) % pe := by
        rw [Nat.add_assoc]
        exact add_mod_eq i (j + 1) pe hi
      rw [harr, Nat.mod_eq_of_lt hj']
      omega
    rw [hA]
    have hidx : i + ys.length + 1 = i + pe := by omega
    have hfire : (i + ys.length + 1) % pe = 0 := by
      rw [hidx, add_mod_eq i pe pe hi]
      exact Nat.mod_self pe
    simp only [loopBatches, stepBatch, if_pos hfire]
    rw [sumLoss_append, sumCorrect_append, sumSize_append]
    simp [sumLoss, sumCorrect, sumSize]
    constructor
    · ring
    · congr 1 <;> ring

/-- Master characterization of the batch loop from zeroed accumulators at
a window-aligned position: the reports are exactly one per complete window
of `pe` batches, and the accumulators end up holding the sums of the
trailing partial window. -/
theorem loopBatches_spec (pe : ℕ) (hpe : 0 < pe) :
    ∀ (bs : List TrainBatch) (i : ℕ) (r : List (ℚ × ℚ)), i % pe = 0 →
      loopBatches pe i ⟨0, 0, 0, r⟩ bs =
        ⟨sumCorrect (leftover pe bs), sumLoss (leftover pe bs),
         sumSize (leftover pe bs), r ++ (chunks pe bs).map windowReport⟩ := by
  have H : ∀ (n : ℕ) (bs : List TrainBatch), bs.length = n →
      ∀ (i : ℕ) (r : List (ℚ × ℚ)), i % pe = 0 →
        loopBatches pe i ⟨0, 0, 0, r⟩ bs =
          ⟨sumCorrect (leftover pe bs), sumLoss (leftover pe bs),
           sumSize (leftover pe bs), r ++ (chunks pe bs).map windowReport⟩ := by
    intro n
    induction n using Nat.strong_induction_on with
    | _ n ih =>
        intro bs hlen i r hi
        by_cases hc : pe ≤ bs.length
        · have hsplit : bs = bs.take pe ++ bs.drop pe := (List.take_append_drop pe bs).symm
          conv_lhs => rw [hsplit]
          rw [loopBatches_append]
          rw [loopBatches_full_window pe hpe (bs.take pe)
            (by simp [List.length_take]; omega) i hi]
          have hi' : (i + (bs.take pe).length) % pe = 0 := by
            have htk : (bs.take pe).length = pe := by simp [List.length_take]; omega
            rw [htk, add_mod_eq i pe pe hi]
            exact Nat.mod_self pe
          have hdroplen : (bs.drop pe).length = n - pe := by
            simp [List.length_drop]
            omega
          have hrec := ih (n - pe) (by omega) (bs.drop pe) hdroplen
            (i + (bs.take pe).length)
            (r ++ [(0 + sumLoss (bs.take pe),
              (0 + sumCorrect (bs.take pe)) / (0 + sumSize (bs.take pe)))]) hi'
          rw [hrec]
          have hchunks : chunks pe bs = bs.take pe :: chunks pe (bs.drop pe) := by
            rw [chunks]
            simp [hpe, hc]
          have hleft : leftover pe bs = leftover pe (bs.drop pe) := by
            have hdiv : bs.length / pe = (bs.length - pe) / pe + 1 :=
              Nat.div_eq_sub_div hpe hc
            simp only [leftover, List.drop_drop, List.length_drop]
            congr 1
            rw [hdiv]
            ring
          rw [hchunks, hleft]
          simp [windowReport]
        · have hchunks : chunks pe bs = [] := by
            rw [chunks]
            simp [hc]
          have hleft : leftover pe bs = bs := by
            have : bs.length / pe = 0 := Nat.div_eq_of_lt (by omega)
            simp [leftover, this]
          rw [hchunks, hleft]
          have := loopBatches_no_report pe bs i ⟨0, 0, 0, r⟩ ?_
          · rw [this]
            simp
          · intro j hj
            have hj' : j + 1 < pe := by omega
            have harr : (i + j + 1) % pe = (j + 1) % pe := by
              rw [Nat.add_assoc]
              exact add_mod_eq i (j + 1) pe hi
            rw [harr, Nat.mod_eq_of_lt hj']
            omega
  intro bs i r hi
  exact H bs.length bs rfl i r hi

/-- Each run of `pe` batches yields exactly one report. -/
theorem chunks_length {α : Type} (pe : ℕ) (hpe : 0 < pe) :
    ∀ (l : List α), (chunks pe l).length = l.length / pe := by
  have H : ∀ (n : ℕ) (l : List α), l.length = n →
      (chunks pe l).length = l.length / pe := by
    intro n
    induction n using Nat.strong_induction_on with
    | _ n ih =>
        intro l hlen
        subst hlen
        by_cases hc : pe ≤ l.length
        · rw [chunks]
          simp only [hpe, hc, and_self, dite_true, List.length_cons]
          rw [ih (l.drop pe).length (by simp [List.length_drop]; omega)
              (l.drop pe) rfl]
          rw [List.length_drop, Nat.div_eq_sub_div hpe hc]
        · rw [chunks]
          simp only [hc, and_false, dite_false, List.length_nil]
          exact (Nat.div_eq_of_lt (by omega)).symm
  intro l
  exact H l.length l rfl

/-- C3 counterexample: the training loop reports the SUM of the batch
losses of a window, not the per-window average.  With `print_every = 2`
and batch losses 1 and 2, the emitted loss is 3 while the window average
is 3/2. -/
theorem report_loss_not_average_counterexample :
    (runEpoch 2 metricInit [⟨1, 1, 1⟩, ⟨2, 1, 1⟩]).reports = [(3, 1)] ∧
      ¬ ((3 : ℚ) = (1 + 2) / 2) := by
  constructor
  · norm_num [runEpoch, loopBatches, stepBatch, metricInit]
  · norm_num

/-- C3 (amended): within an epoch processed from zeroed accumulators,
after exactly `print_every` steps the loop emits one report per complete
window whose accuracy is correct-predictions / total-predictions of the
window and whose loss is the summed (not averaged) batch loss of the
window, and then resets the three accumulators to zero (so at the end of
the epoch they hold exactly the sums of the trailing partial window). -/
theorem report_window_sums_and_resets (pe : ℕ) (hpe : 0 < pe)
    (batches : List TrainBatch) :
    (runEpoch pe metricInit batches).reports =
        (chunks pe batches).map windowReport
    ∧ (runEpoch pe metricInit batches).reports.length = batches.length / pe
    ∧ (runEpoch pe metricInit batches).acc = sumCorrect (leftover pe batches)
    ∧ (runEpoch pe metricInit batches).loss = sumLoss (leftover pe batches)
    ∧ (runEpoch pe metricInit batches).size = sumSize (leftover pe batches) := by
  have h := loopBatches_spec pe hpe batches 0 [] (Nat.zero_mod pe)
  have hrun : runEpoch pe metricInit batches =
      ⟨sumCorrect (leftover pe batches), sumLoss (leftover pe batches),
       sumSize (leftover pe batches), (chunks pe batches).map windowReport⟩ := by
    simp only [runEpoch, metricInit]
    rw [h]
    simp
  rw [hrun]
  refine ⟨rfl, ?_, rfl, rfl, rfl⟩
  simp [chunks_length pe hpe batches]

theorem report_window_sums_and_resets_witness :
    0 < 2 ∧
      ((runEpoch 2 metricInit [⟨1, 1, 1⟩, ⟨2, 1, 1⟩, ⟨5, 0, 2⟩]).reports =
          (chunks 2 [⟨1, 1, 1⟩, ⟨2, 1, 1⟩, ⟨5, 0, 2⟩]).map windowReport
        ∧ (runEpoch 2 metricInit [⟨1, 1, 1⟩, ⟨2, 1, 1⟩, ⟨5, 0, 2⟩]).reports.length =
            ([⟨1, 1, 1⟩, ⟨2, 1, 1⟩, ⟨5, 0, 2⟩] : List TrainBatch).length / 2
        ∧ (runEpoch 2 metricInit [⟨1, 1, 1⟩, ⟨2, 1, 1⟩, ⟨5, 0, 2⟩]).acc =
            sumCorrect (leftover 2 [⟨1, 1, 1⟩, ⟨2, 1, 1⟩, ⟨5, 0, 2⟩])
        ∧ (runEpoch 2 metricInit [⟨1, 1, 1⟩, ⟨2, 1, 1⟩, ⟨5, 0, 2⟩]).loss =
            sumLoss (leftover 2 [⟨1, 1, 1⟩, ⟨2, 1, 1⟩, ⟨5, 0, 2⟩])
        ∧ (runEpoch 2 metricInit [⟨1, 1, 1⟩, ⟨2, 1, 1⟩, ⟨5, 0, 2⟩]).size =
            sumSize (leftover 2 [⟨1, 1, 1⟩, ⟨2, 1, 1⟩, ⟨5, 0, 2⟩])) :=
  ⟨by decide, report_window_sums_and_resets 2 (by decide) _⟩

/-- C4 counterexample: the trailing partial window of an epoch is NOT
isolated from later windows.  With `print_every = 2`, a first epoch of 3
batches (losses 1, 2, 4) and a second epoch of 2 batches (losses 8, 16),
the second report has loss 28 = 4 + 8 + 16: the leftover batch of epoch 1
contributes to the first reported window of epoch 2, whereas the claim
predicts that window to cover only the new epoch's batches (loss 24). -/
theorem partial_window_carryover_counterexample :
    (runEpochs 2 metricInit
        [[⟨1, 1, 1⟩, ⟨2, 1, 1⟩, ⟨4, 1, 1⟩], [⟨8, 1, 1⟩, ⟨16, 1, 1⟩]]).reports
      = [(3, 1), (28, 1)] ∧ ¬ ((28 : ℚ) = 8 + 16) := by
  constructor
  · norm_num [runEpochs, runEpoch, loopBatches, stepBatch, metricInit]
  · norm_num

/-- C4 (amended): when an epoch ends partway through an accumulation
window, no report is emitted at the epoch boundary (the first epoch yields
exactly `length / print_every` reports), but the partial window's
accumulated loss, correct-count and sample-count are NOT discarded: they
carry over and are folded into the next epoch's first emitted window.
Only a partial window at the very end of the run goes unreported. -/
theorem epoch_boundary_partial_window (pe : ℕ) (hpe : 0 < pe)
    (e1 e2 : List TrainBatch) (hlen : pe ≤ e2.length) :
    (runEpoch pe metricInit e1).reports.length = e1.length / pe ∧
    (runEpochs pe metricInit [e1, e2]).reports[e1.length / pe]? =
      some (sumLoss (leftover pe e1) + sumLoss (e2.take pe),
        (sumCorrect (leftover pe e1) + sumCorrect (e2.take pe)) /
          (sumSize (leftover pe e1) + sumSize (e2.take pe))) := by
  have h1 := loopBatches_spec pe hpe e1 0 [] (Nat.zero_mod pe)
  have hrun1 : runEpoch pe metricInit e1 =
      ⟨sumCorrect (leftover pe e1), sumLoss (leftover pe e1),
       sumSize (leftover pe e1), (chunks pe e1).map windowReport⟩ := by
    simp only [runEpoch, metricInit]
    rw [h1]
    simp
  have hreplen : ((chunks pe e1).map windowReport).length = e1.length / pe := by
    simp [chunks_length pe hpe e1]
  constructor
  · rw [hrun1]
    exact hreplen
  · have htk : (e2.take pe).length = pe := by
      simp only [List.length_take]
      omega
    have hsplit2 : e2 = e2.take pe ++ e2.drop pe := (List.take_append_drop pe e2).symm
    have hstep2 : runEpochs pe metricInit [e1, e2] =
        loopBatches pe 0 (runEpoch pe metricInit e1) e2 := rfl
    rw [hstep2, hrun1]
    conv_lhs => rw [hsplit2]
    rw [loopBatches_append,
      loopBatches_full_window pe hpe (e2.take pe) htk 0 (Nat.zero_mod pe)]
    have hi2 : (0 + (e2.take pe).length) % pe = 0 := by
      rw [htk, Nat.zero_add]
      exact Nat.mod_self pe
    rw [loopBatches_spec pe hpe (e2.drop pe) (0 + (e2.take pe).length) _ hi2]
    simp only [List.append_assoc, List.singleton_append]
    rw [← hreplen]
    rw [List.getElem?_append_right (le_refl _)]
    simp

theorem epoch_boundary_partial_window_witness :
    (0 < 2 ∧ 2 ≤ ([⟨8, 1, 1⟩, ⟨16, 1, 1⟩] : List TrainBatch).length) ∧
    ((runEpoch 2 metricInit [⟨1, 1, 1⟩, ⟨2, 1, 1⟩, ⟨4, 1, 1⟩]).reports.length =
        ([⟨1, 1, 1⟩, ⟨2, 1, 1⟩, ⟨4, 1, 1⟩] : List TrainBatch).length / 2 ∧
      (runEpochs 2 metricInit [[⟨1, 1, 1⟩, ⟨2, 1, 1⟩, ⟨4, 1, 1⟩],
          [⟨8, 1, 1⟩, ⟨16, 1, 1⟩]]).reports[
          ([⟨1, 1, 1⟩, ⟨2, 1, 1⟩, ⟨4, 1, 1⟩] : List TrainBatch).length / 2]? =
        some (sumLoss (leftover 2 [⟨1, 1, 1⟩, ⟨2, 1, 1⟩, ⟨4, 1, 1⟩]) +
            sumLoss (([⟨8, 1, 1⟩, ⟨16, 1, 1⟩] : List TrainBatch).take 2),
          (sumCorrect (leftover 2 [⟨1, 1, 1⟩, ⟨2, 1, 1⟩, ⟨4, 1, 1⟩]) +
              sumCorrect (([⟨8, 1, 1⟩, ⟨16, 1, 1⟩] : List TrainBatch).take 2)) /
            (sumSize (leftover 2 [⟨1, 1, 1⟩, ⟨2, 1, 1⟩, ⟨4, 1, 1⟩]) +
              sumSize (([⟨8, 1, 1⟩, ⟨16, 1, 1⟩] : List TrainBatch).take 2)))) :=
  ⟨⟨by decide, by simp⟩,
    epoch_boundary_partial_window 2 (by decide)
      [⟨1, 1, 1⟩, ⟨2, 1, 1⟩, ⟨4, 1, 1⟩] [⟨8, 1, 1⟩, ⟨16, 1, 1⟩] (by simp)⟩

/-! ## Parameter mutation vs. checkpoint snapshot (train.py lines 99-101,
115-128)

A second, finer view of the training loop for the frame property of the
deep-copied checkpoint.  A run is a sequence of events: training steps
(backward pass + `optimizer.step()`, which mutate the parameter state by
some update function) and validations (which may replace `max_dev_acc`,
`max_dev_f1` and, on an F1 improvement, `best_model :=
copy.deepcopy(model.state_dict())`).  Because the snapshot is a deep copy,
it is modelled as holding the parameter VALUE at snapshot time. -/

inductive TrainEvent (P : Type) where
  | step (upd : P → P)
  | validate (acc f1 : ℚ)

def TrainEvent.isStep {P : Type} : TrainEvent P → Bool
  | .step _ => true
  | .validate _ _ => false

structure TrainState (P : Type) where
  params : P
  maxDevAcc : ℚ
  maxDevF1 : ℚ
  best : Option P

/-- Effect of one event: lines 99-101 (parameter update) or lines 117-122
(validation bookkeeping). -/
def trainStep {P : Type} (s : TrainState P) : TrainEvent P → TrainState P
  | .step u => { s with params := u s.params }
  | .validate a f1 =>
      let s1 := if s.maxDevAcc < a then { s with maxDevAcc := a } else s
      if s1.maxDevF1 < f1 then
        { s1 with maxDevF1 := f1, best := some s1.params }
      else s1

def runEvents {P : Type} (s : TrainState P) (evs : List (TrainEvent P)) :
    TrainState P :=
  evs.foldl trainStep s

/-- A training step never touches the `best` snapshot. -/
theorem trainStep_step_best {P : Type} (s : TrainState P) (u : P → P) :
    (trainStep s (.step u)).best = s.best := rfl

/-- C7: once a validation improves on the best F1, the snapshot taken is
the parameter value at that very moment, and any number of subsequent
training steps (which mutate the live parameters arbitrarily) leave it
unchanged, so the artifact carried out of the run is the parameter state
at the moment of its snapshot. -/
theorem snapshot_immune_to_training {P : Type} (s : TrainState P)
    (a f1 : ℚ) (evs : List (TrainEvent P))
    (himpr : s.maxDevF1 < f1) (hsteps : ∀ e ∈ evs, e.isStep = true) :
    (runEvents s (.validate a f1 :: evs)).best = some s.params := by
  have hval : (trainStep s (.validate a f1)).best = some s.params := by
    simp only [trainStep]
    by_cases ha : s.maxDevAcc < a
    · simp only [if_pos ha]
      rw [if_pos (by simpa using himpr)]
    · simp only [if_neg ha]
      rw [if_pos himpr]
  have hframe : ∀ (l : List (TrainEvent P)), (∀ e ∈ l, e.isStep = true) →
      ∀ (t : TrainState P), (runEvents t l).best = t.best := by
    intro l
    induction l with
    | nil => intro _ t; rfl
    | cons e l ih =>
        intro h t
        cases e with
        | step u =>
            have := ih (fun x hx => h x (List.mem_cons.mpr (Or.inr hx)))
              (trainStep t (.step u))
            simpa [runEvents, List.foldl_cons] using this
        | validate a' f1' =>
            have := h (.validate a' f1') (List.mem_cons_self _ _)
            simp [TrainEvent.isStep] at this
  show (runEvents (trainStep s (.validate a f1)) evs).best = some s.params
  rw [hframe evs hsteps, hval]

theorem snapshot_immune_to_training_witness :
    ((0 : ℚ) < 1 ∧
        ∀ e ∈ [TrainEvent.step (fun p => p + 1)], e.isStep = true) ∧
      (runEvents (⟨5, 0, 0, none⟩ : TrainState ℕ)
          (.validate (1/2) 1 :: [TrainEvent.step (fun p => p + 1)])).best =
        some 5 :=
  ⟨⟨by norm_num, by simp [TrainEvent.isStep]⟩,
    snapshot_immune_to_training ⟨5, 0, 0, none⟩ (1/2) 1
      [TrainEvent.step (fun p => p + 1)] (by norm_num)
      (by simp [TrainEvent.isStep])⟩

/-! ## Submission file generation (train.py lines 188-196)

`submission` writes the header `'\t'.join(["id", "turn1", "turn2",
"turn3", "label"])`, then, after skipping the input header with
`fin.readline()`, writes for each input line
`'\t'.join(line.strip().split('\t')[:4]) + '\t' + itos[preds[lineNum]]`.
The parallel traversal of input rows and predictions models the
`preds[lineNum]` indexing; a missing prediction or an out-of-range label
index raises in Python and is `none` here. -/

def headerLine : String :=
  String.intercalate "\t" ["id", "turn1", "turn2", "turn3", "label"]

/-- One output data row: the first four tab-separated fields of the
stripped input line, then the predicted label. -/
def mkSubmissionRow (line : String) (label : String) : String :=
  String.intercalate "\t" ((line.trim.splitOn "\t").take 4) ++ "\t" ++ label

def submissionBody (itos : List String) :
    List String → List ℕ → Option (List String)
  | [], _ => some []
  | _ :: _, [] => none
  | line :: rest, p :: ps => do
      let lab ← itos[p]?
      let body ← submissionBody itos rest ps
      pure (mkSubmissionRow line lab :: body)

/-- The whole submission file, as its list of lines. -/
def submissionFile (rows : List String) (preds : List ℕ)
    (itos : List String) : Option (List String) :=
  (submissionBody itos rows preds).map (fun body => headerLine :: body)

theorem submissionBody_spec (itos : List String) :
    ∀ (rows : List String) (preds : List ℕ),
      rows.length ≤ preds.length →
      (∀ p ∈ preds, p < itos.length) →
      ∃ body, submissionBody itos rows preds = some body ∧
        body.length = rows.length ∧
        ∀ k, k < rows.length →
          body[k]? = some (mkSubmissionRow (rows.getD k "")
            (itos.getD (preds.getD k 0) "")) := by
  intro rows
  induction rows with
  | nil =>
      intro preds _ _
      exact ⟨[], rfl, rfl, by intro k hk; cases hk⟩
  | cons line rest ih =>
      intro preds hlen hmem
      cases preds with
      | nil => simp at hlen
      | cons p ps =>
          have hp : p < itos.length := hmem p (List.mem_cons_self p ps)
          have hlab : itos[p]? = some itos[p] := List.getElem?_eq_getElem hp
          obtain ⟨body, hbody, hblen, hbidx⟩ := ih ps (by simpa using hlen)
            (fun q hq => hmem q (List.mem_cons.mpr (Or.inr hq)))
          refine ⟨mkSubmissionRow line itos[p] :: body, ?_, by simp [hblen], ?_⟩
          · simp only [submissionBody, hlab, hbody, Option.bind_eq_bind,
              Option.some_bind]
            rfl
          · intro k hk
            cases k with
            | zero =>
                simp only [List.getElem?_cons_zero, List.getD_cons_zero]
                rw [List.getD_eq_getElem itos "" hp]
            | succ k =>
                simp only [List.getElem?_cons_succ, List.getD_cons_succ]
                exact hbidx k (by simpa using hk)

/-- C2: for a test input file with a header line and `n` data rows (and
predictions covering all rows with in-range label indices), the submission
file is exactly one header row `id\tturn1\tturn2\tturn3\tlabel` followed
by `n` data rows in input order, the `k`-th being the first four
tab-separated columns of the `k`-th input data row followed by the
predicted label string. -/
theorem submission_file_shape (rows : List String) (preds : List ℕ)
    (itos : List String) (h1 : rows.length ≤ preds.length)
    (h2 : ∀ p ∈ preds, p < itos.length) :
    ∃ out, submissionFile rows preds itos = some out ∧
      out.length = rows.length + 1 ∧
      out[0]? = some headerLine ∧
      ∀ k, k < rows.length →
        out[k + 1]? = some (String.intercalate "\t"
            (((rows.getD k "").trim.splitOn "\t").take 4)
          ++ "\t" ++ itos.getD (preds.getD k 0) "") := by
  obtain ⟨body, hbody, hblen, hbidx⟩ := submissionBody_spec itos rows preds h1 h2
  refine ⟨headerLine :: body, ?_, by simp [hblen], by simp, ?_⟩
  · rw [submissionFile, hbody]
    rfl
  · intro k hk
    simp only [List.getElem?_cons_succ]
    exact hbidx k hk

theorem submission_file_shape_witness :
    ((["1\ta\tb\tc\textra", "2\td\te\tf"] : List String).length ≤
        ([1, 0] : List ℕ).length ∧
      ∀ p ∈ ([1, 0] : List ℕ), p < (["angry", "happy"] : List String).length) ∧
    (∃ out, submissionFile ["1\ta\tb\tc\textra", "2\td\te\tf"] [1, 0]
        ["angry", "happy"] = some out ∧
      out.length = (["1\ta\tb\tc\textra", "2\td\te\tf"] : List String).length + 1 ∧
      out[0]? = some headerLine ∧
      ∀ k, k < (["1\ta\tb\tc\textra", "2\td\te\tf"] : List String).length →
        out[k + 1]? = some (String.intercalate "\t"
            ((((["1\ta\tb\tc\textra", "2\td\te\tf"] : List String).getD k
              "").trim.splitOn "\t").take 4)
          ++ "\t" ++ (["angry", "happy"] : List String).getD
              (([1, 0] : List ℕ).getD k 0) "")) :=
  ⟨⟨by simp, by decide⟩,
    submission_file_shape ["1\ta\tb\tc\textra", "2\td\te\tf"] [1, 0]
      ["angry", "happy"] (by simp) (by decide)⟩

/-! ## SSWE embedding alignment (train.py lines 199-231)

`build_sswe_vectors` reads the SSWE vocabulary file into a dict `stoi`
(`stoi[line.strip()] = idx`, later lines overwriting earlier duplicates),
then for each token of the run's text vocabulary executes `try: index =
stoi[TEXT.vocab.itos[i]]; except: index = 0` and appends
`embedding[index]`.  Only the `stoi` lookup is inside the `try`; the
`embedding[index]` access is not guarded. -/

def buildStoiAux (idx : ℕ) (m : String → Option ℕ) :
    List String → (String → Option ℕ)
  | [] => m
  | l :: ls =>
      buildStoiAux (idx + 1) (fun s => if s = l.trim then some idx else m s) ls

/-- The `stoi` dict built from the vocabulary file's lines. -/
def buildStoi (lines : List String) : String → Option ℕ :=
  buildStoiAux 0 (fun _ => none) lines

/-- `try: index = stoi[tok]; except: index = 0  # <unk> index`. -/
def lookupIdx (stoi : String → Option ℕ) (tok : String) : ℕ :=
  match stoi tok with
  | some j => j
  | none => 0

/-- The vector-building loop: one embedding row per vocabulary token, in
vocabulary order. -/
def build_sswe_vectors (embedding : List (List ℚ))
    (stoi : String → Option ℕ) : List String → Option (List (List ℚ))
  | [] => some []
  | tok :: toks => do
      let row ← embedding[lookupIdx stoi tok]?
      let rows ← build_sswe_vectors embedding stoi toks
      pure (row :: rows)

theorem buildStoiAux_lt :
    ∀ (ls : List String) (idx : ℕ) (m : String → Option ℕ),
      (∀ t j, m t = some j → j < idx) →
      ∀ t j, buildStoiAux idx m ls t = some j → j < idx + ls.length := by
  intro ls
  induction ls with
  | nil =>
      intro idx m hm t j h
      have := hm t j h
      simpa using this
  | cons l ls ih =>
      intro idx m hm t j h
      have hstep : ∀ t j,
          (fun s => if s = l.trim then some idx else m s) t = some j →
            j < idx + 1 := by
        intro t j hj
        by_cases he : t = l.trim
        · simp only [if_pos he, Option.some.injEq] at hj
          omega
        · simp only [if_neg he] at hj
          exact Nat.lt_succ_of_lt (hm t j hj)
      have := ih (idx + 1) _ hstep t j h
      simpa [Nat.add_comm, Nat.add_assoc, Nat.add_left_comm] using this

theorem buildStoi_lt (ls : List String) (t : String) (j : ℕ)
    (h : buildStoi ls t = some j) : j < ls.length := by
  have := buildStoiAux_lt ls 0 (fun _ => none) (by intro t j h; cases h) t j h
  simpa using this

theorem build_sswe_rows (embedding : List (List ℚ))
    (stoi : String → Option ℕ)
    (hidx : ∀ tok, lookupIdx stoi tok < embedding.length) :
    ∀ toks, ∃ vs, build_sswe_vectors embedding stoi toks = some vs ∧
      vs.length = toks.length ∧
      ∀ i, i < toks.length →
        vs[i]? = some (embedding.getD (lookupIdx stoi (toks.getD i "")) []) := by
  intro toks
  induction toks with
  | nil => exact ⟨[], rfl, rfl, by intro i hi; cases hi⟩
  | cons tok rest ih =>
      obtain ⟨vs, hvs, hlen, hget⟩ := ih
      have hrow : embedding[lookupIdx stoi tok]? =
          some (embedding.get ⟨lookupIdx stoi tok, hidx tok⟩) := by
        rw [List.getElem?_eq_getElem (hidx tok), List.get_eq_getElem]
      refine ⟨embedding.get ⟨lookupIdx stoi tok, hidx tok⟩ :: vs, ?_,
        by simp [hlen], ?_⟩
      · simp only [build_sswe_vectors, hrow, hvs, Option.bind_eq_bind,
          Option.some_bind]
        rfl
      · intro i hi
        cases i with
        | zero =>
            simp only [List.getElem?_cons_zero, List.getD_cons_zero]
            rw [List.getD_eq_getElem embedding [] (hidx tok),
              List.get_eq_getElem]
        | succ i =>
            simp only [List.getElem?_cons_succ, List.getD_cons_succ]
            exact hget i (by simpa using hi)

/-- C6: for a vocabulary of size `V`, `build_sswe_vectors` yields a table
with exactly `V` rows, where row `i` is the source embedding row at the
index the SSWE vocabulary assigns to token `i` when the lookup succeeds,
and the source embedding row at the fixed out-of-vocabulary index 0 when
the per-token lookup fails — the failure is absorbed, never propagated
(the overall result is still `some`). -/
theorem build_sswe_vectors_aligned (embedding : List (List ℚ))
    (vocabLines : List String) (textItos : List String)
    (hlen : vocabLines.length ≤ embedding.length)
    (h0 : 0 < embedding.length) :
    ∃ vs, build_sswe_vectors embedding (buildStoi vocabLines) textItos
        = some vs ∧
      vs.length = textItos.length ∧
      ∀ i, i < textItos.length →
        ((∃ j, buildStoi vocabLines (textItos.getD i "") = some j ∧
            vs[i]? = some (embedding.getD j [])) ∨
          (buildStoi vocabLines (textItos.getD i "") = none ∧
            vs[i]? = some (embedding.getD 0 []))) := by
  have hidx : ∀ tok, lookupIdx (buildStoi vocabLines) tok < embedding.length := by
    intro tok
    rcases h : buildStoi vocabLines tok with _ | j
    · simpa [lookupIdx, h] using h0
    · have := buildStoi_lt vocabLines tok j h
      simp only [lookupIdx, h]
      omega
  obtain ⟨vs, hvs, hvlen, hget⟩ := build_sswe_rows embedding _ hidx textItos
  refine ⟨vs, hvs, hvlen, ?_⟩
  intro i hi
  rcases h : buildStoi vocabLines (textItos.getD i "") with _ | j
  · right
    refine ⟨rfl, ?_⟩
    have := hget i hi
    rwa [lookupIdx, h] at this
  · left
    refine ⟨j, rfl, ?_⟩
    have := hget i hi
    rwa [lookupIdx, h] at this

theorem build_sswe_vectors_aligned_witness :
    ((["the", "cat"] : List String).length ≤
        ([[0, 0], [1, 1], [2, 2]] : List (List ℚ)).length ∧
      0 < ([[0, 0], [1, 1], [2, 2]] : List (List ℚ)).length) ∧
    (∃ vs, build_sswe_vectors [[0, 0], [1, 1], [2, 2]]
        (buildStoi ["the", "cat"]) ["cat", "dog"] = some vs ∧
      vs.length = (["cat", "dog"] : List String).length ∧
      ∀ i, i < (["cat", "dog"] : List String).length →
        ((∃ j, buildStoi ["the", "cat"]
              ((["cat", "dog"] : List String).getD i "") = some j ∧
            vs[i]? = some (([[0, 0], [1, 1], [2, 2]] :
              List (List ℚ)).getD j [])) ∨
          (buildStoi ["the", "cat"]
              ((["cat", "dog"] : List String).getD i "") = none ∧
            vs[i]? = some (([[0, 0], [1, 1], [2, 2]] :
              List (List ℚ)).getD 0 [])))) :=
  ⟨⟨by simp, by simp⟩,
    build_sswe_vectors_aligned [[0, 0], [1, 1], [2, 2]] ["the", "cat"]
      ["cat", "dog"] (by simp) (by simp)⟩

/-! ## Prediction: softmax and arg-max (train.py lines 134-161, 179-196)

`predict` applies `nn.Softmax(dim=1)` to each row of logits; `submission`
then takes `preds.argmax(axis=1)` (NumPy: the first index attaining the
row maximum) and maps it through `data.LABEL.vocab.itos`. -/

/-- The running-best pass of NumPy's `argmax`: the accumulator holds the
index and value of the current best; a later element replaces it only on a
STRICT improvement, so the first maximal index wins. -/
def argmaxP {α : Type} [LinearOrder α] : List α → ℕ → ℕ × α → ℕ × α
  | [], _, b => b
  | x :: xs, i, b =>
      if b.2 < x then argmaxP xs (i + 1) (i, x) else argmaxP xs (i + 1) b

/-- `np.argmax` over a list (0 on the empty list). -/
def argmaxIdx {α : Type} [LinearOrder α] : List α → ℕ
  | [] => 0
  | x :: xs => (argmaxP xs 1 (0, x)).1

/-- Row-wise softmax, `nn.Softmax(dim=1)` on one row of logits. -/
noncomputable def softmaxRow (l : List ℝ) : List ℝ :=
  l.map (fun x => Real.exp x / (l.map Real.exp).sum)

/-- The predicted class index of one test row: `predict` applies softmax,
`submission` takes the arg-max. -/
noncomputable def predictedIdx (logits : List ℝ) : ℕ :=
  argmaxIdx (softmaxRow logits)

/-- The label string written to the submission file for one row:
`data.LABEL.vocab.itos[preds[lineNum]]`. -/
noncomputable def predictedLabel (itos : List String) (logits : List ℝ) :
    Option String :=
  itos[predictedIdx logits]?

theorem argmaxP_spec {α : Type} [LinearOrder α] (d : α) :
    ∀ (xs : List α) (i bi : ℕ) (bv : α),
      (argmaxP xs i (bi, bv)).2 = xs.foldl max bv ∧
      ((argmaxP xs i (bi, bv)) = (bi, bv) ∨
        (∃ k, k < xs.length ∧ (argmaxP xs i (bi, bv)).1 = i + k ∧
          xs.getD k d = (argmaxP xs i (bi, bv)).2 ∧
          bv < (argmaxP xs i (bi, bv)).2 ∧
          ∀ j, j < k → xs.getD j d < (argmaxP xs i (bi, bv)).2)) := by
  intro xs
  induction xs with
  | nil =>
      intro i bi bv
      exact ⟨rfl, Or.inl rfl⟩
  | cons x xs ih =>
      intro i bi bv
      by_cases hx : bv < x
      · have hmax : max bv x = x := max_eq_right (le_of_lt hx)
        obtain ⟨hval, hcase⟩ := ih (i + 1) i x
        have hred : argmaxP (x :: xs) i (bi, bv) = argmaxP xs (i + 1) (i, x) := by
          simp [argmaxP, hx]
        constructor
        · rw [hred, hval, List.foldl_cons, hmax]
        · rcases hcase with heq | ⟨k, hk, hidx, hget, hbv, hprev⟩
          · right
            refine ⟨0, by simp, ?_, ?_, ?_, by intro j hj; cases hj⟩
            · rw [hred, heq]
              simp
            · rw [hred, heq]
              simp
            · rw [hred, heq]
              exact hx
          · right
            refine ⟨k + 1, by simpa using hk, ?_, ?_, ?_, ?_⟩
            · rw [hred, hidx]
              omega
            · rw [hred]
              simpa using hget
            · rw [hred]
              exact lt_trans hx hbv
            · intro j hj
              rw [hred]
              cases j with
              | zero =>
                  simpa using hbv
              | succ j =>
                  simpa using hprev j (by omega)
      · have hmax : max bv x = bv := max_eq_left (le_of_not_lt hx)
        obtain ⟨hval, hcase⟩ := ih (i + 1) bi bv
        have hred : argmaxP (x :: xs) i (bi, bv) = argmaxP xs (i + 1) (bi, bv) := by
          simp [argmaxP, hx]
        constructor
        · rw [hred, hval, List.foldl_cons, hmax]
        · rcases hcase with heq | ⟨k, hk, hidx, hget, hbv, hprev⟩
          · left
            rw [hred, heq]
          · right
            refine ⟨k + 1, by simpa using hk, ?_, ?_, ?_, ?_⟩
            · rw [hred, hidx]
              omega
            · rw [hred]
              simpa using hget
            · rw [hred]
              exact hbv
            · intro j hj
              rw [hred]
              cases j with
              | zero =>
                  simp only [List.getD_cons_zero]
                  exact lt_of_le_of_lt (le_of_not_lt hx) hbv
              | succ j =>
                  simpa using hprev j (by omega)

/-- `argmaxIdx` returns an in-range index of a maximal element, and the
FIRST such index: everything before it is strictly smaller. -/
theorem argmaxIdx_spec {α : Type} [LinearOrder α] (d : α) (l : List α)
    (hne : l ≠ []) :
    argmaxIdx l < l.length ∧
    (∀ j, j < l.length → l.getD j d ≤ l.getD (argmaxIdx l) d) ∧
    (∀ j, j < argmaxIdx l → l.getD j d < l.getD (argmaxIdx l) d) := by
  cases l with
  | nil => exact absurd rfl hne
  | cons x xs =>
      obtain ⟨hval, hcase⟩ := argmaxP_spec d xs 1 0 x
      rcases hcase with heq | ⟨k, hk, hidx, hget, hbv, hprev⟩
      · have hidx0 : argmaxIdx (x :: xs) = 0 := by
          simp [argmaxIdx, heq]
        have hvx : (argmaxP xs 1 (0, x)).2 = x := by rw [heq]
        have hall : ∀ y ∈ xs, y ≤ x := by
          intro y hy
          have := mem_le_foldl_max xs x y hy
          rw [← hval, hvx] at this
          exact this
        rw [hidx0]
        refine ⟨by simp, ?_, by intro j hj; cases hj⟩
        intro j hj
        cases j with
        | zero => exact le_refl _
        | succ j =>
            simp only [List.getD_cons_succ, List.getD_cons_zero]
            have hjlt : j < xs.length := by simpa using hj
            have : xs.getD j d ∈ xs := by
              rw [List.getD_eq_getElem xs d hjlt]
              exact List.getElem_mem hjlt
            exact hall _ this
      · have hidx1 : argmaxIdx (x :: xs) = 1 + k := by
          simp [argmaxIdx, hidx]
        have hgetm : (x :: xs).getD (1 + k) d = (argmaxP xs 1 (0, x)).2 := by
          have h1k : 1 + k = k + 1 := by omega
          rw [h1k, List.getD_cons_succ]
          exact hget
        rw [hidx1, hgetm]
        refine ⟨by simp; omega, ?_, ?_⟩
        · intro j hj
          cases j with
          | zero =>
              simp only [List.getD_cons_zero]
              exact le_of_lt hbv
          | succ j =>
              simp only [List.getD_cons_succ]
              have hjlt : j < xs.length := by simpa using hj
              have hmem : xs.getD j d ∈ xs := by
                rw [List.getD_eq_getElem xs d hjlt]
                exact List.getElem_mem hjlt
              have := mem_le_foldl_max xs x _ hmem
              rwa [← hval] at this
        · intro j hj
          cases j with
          | zero =>
              simp only [List.getD_cons_zero]
              exact hbv
          | succ j =>
              simp only [List.getD_cons_succ]
              exact hprev j (by omega)

theorem argmaxP_map {α β : Type} [LinearOrder α] [LinearOrder β]
    (f : α → β) (hf : ∀ x y : α, f x < f y ↔ x < y) :
    ∀ (xs : List α) (i bi : ℕ) (bv : α),
      argmaxP (xs.map f) i (bi, f bv) =
        ((argmaxP xs i (bi, bv)).1, f (argmaxP xs i (bi, bv)).2) := by
  intro xs
  induction xs with
  | nil => intro i bi bv; rfl
  | cons x xs ih =>
      intro i bi bv
      by_cases hx : bv < x
      · have hfx : f bv < f x := (hf bv x).mpr hx
        simp only [List.map_cons, argmaxP, hx, hfx, if_pos]
        exact ih (i + 1) i x
      · have hfx : ¬ f bv < f x := fun hc => hx ((hf bv x).mp hc)
        simp only [List.map_cons, argmaxP, if_neg hx, if_neg hfx]
        exact ih (i + 1) bi bv

/-- Mapping a strictly order-preserving function over a list does not
change the arg-max index. -/
theorem argmaxIdx_map {α β : Type} [LinearOrder α] [LinearOrder β]
    (f : α → β) (hf : ∀ x y : α, f x < f y ↔ x < y) (l : List α) :
    argmaxIdx (l.map f) = argmaxIdx l := by
  cases l with
  | nil => rfl
  | cons x xs =>
      simp only [List.map_cons, argmaxIdx]
      rw [argmaxP_map f hf xs 1 0 x]

theorem expSum_pos (l : List ℝ) (hne : l ≠ []) :
    0 < (l.map Real.exp).sum := by
  cases l with
  | nil => exact absurd rfl hne
  | cons x xs =>
      simp only [List.map_cons, List.sum_cons]
      have h1 : 0 < Real.exp x := Real.exp_pos x
      have h2 : 0 ≤ (xs.map Real.exp).sum := by
        apply List.sum_nonneg
        intro y hy
        obtain ⟨z, _, rfl⟩ := List.mem_map.mp hy
        exact le_of_lt (Real.exp_pos z)
      linarith

/-- C10: for every logit row, the softmax normalization does not change
the arg-max: the predicted class index equals the arg-max of the raw
logits, so the submission labels are determined by the raw logits alone. -/
theorem softmax_preserves_argmax (logits : List ℝ) :
    argmaxIdx (softmaxRow logits) = argmaxIdx logits := by
  cases hne : logits with
  | nil => rfl
  | cons x xs =>
      rw [← hne]
      have hpos : 0 < (logits.map Real.exp).sum :=
        expSum_pos logits (by rw [hne]; simp)
      apply argmaxIdx_map
      intro a b
      constructor
      · intro h
        have := (div_lt_div_iff_of_pos_right hpos).mp h
        exact Real.exp_lt_exp.mp this
      · intro h
        exact (div_lt_div_iff_of_pos_right hpos).mpr (Real.exp_lt_exp.mpr h)

/-- C5: for every test row, the predicted label is the vocabulary string
at the arg-max index of the softmaxed logits; that index is in range,
attains the maximal softmax score, is the first index doing so (NumPy
arg-max tie-breaking), and the index-to-string round trip is the fixed
pure lookup `itos[predictedIdx logits]` — deterministic for fixed input. -/
theorem predicted_label_is_softmax_argmax (itos : List String)
    (logits : List ℝ) (hne : logits ≠ []) :
    predictedIdx logits < logits.length ∧
    (∀ j, j < logits.length →
      (softmaxRow logits).getD j 0 ≤
        (softmaxRow logits).getD (predictedIdx logits) 0) ∧
    (∀ j, j < predictedIdx logits →
      (softmaxRow logits).getD j 0 <
        (softmaxRow logits).getD (predictedIdx logits) 0) ∧
    predictedLabel itos logits = itos[argmaxIdx (softmaxRow logits)]? := by
  have hlen : (softmaxRow logits).length = logits.length := by
    simp [softmaxRow]
  have hsne : softmaxRow logits ≠ [] := by
    intro hc
    apply hne
    have := congrArg List.length hc
    rw [hlen] at this
    exact List.length_eq_zero.mp this
  obtain ⟨h1, h2, h3⟩ := argmaxIdx_spec (0 : ℝ) (softmaxRow logits) hsne
  refine ⟨?_, ?_, h3, rfl⟩
  · rw [← hlen]
    exact h1
  · intro j hj
    exact h2 j (by rwa [hlen])

theorem predicted_label_is_softmax_argmax_witness :
    (([0, 1] : List ℝ) ≠ [] ∧
      predictedIdx [0, 1] < ([0, 1] : List ℝ).length ∧
      (∀ j, j < ([0, 1] : List ℝ).length →
        (softmaxRow [0, 1]).getD j 0 ≤
          (softmaxRow [0, 1]).getD (predictedIdx [0, 1]) 0) ∧
      (∀ j, j < predictedIdx [0, 1] →
        (softmaxRow [0, 1]).getD j 0 <
          (softmaxRow [0, 1]).getD (predictedIdx [0, 1]) 0) ∧
      predictedLabel ["angry", "happy"] [0, 1] =
        (["angry", "happy"] : List String)[argmaxIdx (softmaxRow [0, 1])]?) :=
  ⟨by simp,
    predicted_label_is_softmax_argmax ["angry", "happy"] [0, 1] (by simp)⟩

/-! ## Gradient-norm clipping (train.py lines 37-38 and 100)

`nn.utils.clip_grad_norm_(ps, max_norm)` computes the Euclidean norm of
the concatenated gradients of the tensors it is given, the coefficient
`max_norm / (total_norm + 1e-6)`, and scales exactly those gradients by it
when the coefficient is below 1; gradients of tensors not in `ps` are
untouched.  `clipGradNorm` below embeds this library semantics on a flat
list of gradient entries.

What line 100 actually passes, however, is `parameters = filter(lambda p:
p.requires_grad, model.parameters())` from line 37 — a one-shot iterator
that `optim.Adam(parameters, ...)` at line 38 has already exhausted by
materializing it into its param groups.  So the call at line 100 iterates
an empty iterable and scales nothing: the model's gradient vector passes
through the line unchanged. -/

noncomputable def gradNorm (g : List ℝ) : ℝ :=
  Real.sqrt ((g.map (fun x => x * x)).sum)

/-- `clip_coef = max_norm / (total_norm + 1e-6)`. -/
noncomputable def clipCoef (maxNorm : ℝ) (g : List ℝ) : ℝ :=
  maxNorm / (gradNorm g + 1 / 1000000)

/-- The in-place clipping: scale all entries iff `clip_coef < 1`. -/
noncomputable def clipGradNorm (maxNorm : ℝ) (g : List ℝ) : List ℝ :=
  if clipCoef maxNorm g < 1 then g.map (fun x => clipCoef maxNorm g * x)
  else g

theorem gradNorm_smul (c : ℝ) (hc : 0 ≤ c) (g : List ℝ) :
    gradNorm (g.map (fun x => c * x)) = c * gradNorm g := by
  unfold gradNorm
  rw [List.map_map]
  have hfun : ((fun x => x * x) ∘ fun x => c * x) =
      fun x => (c * c) * (x * x) := by
    funext x
    simp only [Function.comp_apply]
    ring
  rw [hfun, List.sum_map_mul_left,
    Real.sqrt_mul (by positivity : (0 : ℝ) ≤ c * c),
    Real.sqrt_mul_self hc]

/-- The library function itself does satisfy the spec's bound: applied to
a gradient vector with a nonnegative limit, the post-clipping Euclidean
norm never exceeds the limit (exact over the reals).  This is the behavior
the claim describes and the code intends but never invokes on the model's
gradients. -/
theorem clipped_grad_norm_le (maxNorm : ℝ) (g : List ℝ)
    (h : 0 ≤ maxNorm) :
    gradNorm (clipGradNorm maxNorm g) ≤ maxNorm := by
  have hn0 : 0 ≤ gradNorm g := Real.sqrt_nonneg _
  have hd : 0 < gradNorm g + 1 / 1000000 := by positivity
  by_cases hc : clipCoef maxNorm g < 1
  · rw [clipGradNorm, if_pos hc]
    have hcoef : 0 ≤ clipCoef maxNorm g := div_nonneg h (le_of_lt hd)
    rw [gradNorm_smul _ hcoef, clipCoef, div_mul_eq_mul_div, div_le_iff₀ hd]
    nlinarith
  · rw [clipGradNorm, if_neg hc]
    push_neg at hc
    rw [clipCoef] at hc
    have := (one_le_div hd).mp hc
    linarith

/-- The contents of the `parameters` filter iterator by the time line 100
runs: `optim.Adam(parameters, lr=args.learning_rate)` at line 38 already
consumed it, so iterating it again yields nothing. -/
def exhaustedFilterContents : List ℝ := []

/-- The model's trainable-parameter gradient vector after line 100
executes: `clip_grad_norm_` scales exactly the gradients of the iterable
it receives — here the exhausted iterator, contributing nothing — while
the model's actual gradients `g`, not reachable through that argument,
pass through untouched. -/
noncomputable def gradsAfterLine100 (maxNorm : ℝ) (g : List ℝ) : List ℝ :=
  clipGradNorm maxNorm exhaustedFilterContents ++ g

/-- C8 (code bug): the claim states the intended behavior, but the code
never applies it to the model.  Because `optim.Adam` at line 38 exhausts
the `parameters` filter iterator of line 37, the
`clip_grad_norm_(parameters, max_norm=args.norm_limit)` call at line 100
iterates an empty iterable and clips nothing.  At post-backward gradient
vector `[3, 4]` with `args.norm_limit = 1`, the gradients survive line
100 unchanged with norm 5 > 1, violating the claimed bound — while the
same library call applied to the actual gradient vector, as the claim and
spec describe, would bound the norm by 1. -/
theorem grad_clipping_skipped_line100 :
    gradsAfterLine100 1 [3, 4] = [3, 4] ∧
    gradNorm [3, 4] = 5 ∧
    ¬ gradNorm (gradsAfterLine100 1 [3, 4]) ≤ 1 ∧
    gradNorm (clipGradNorm 1 [3, 4]) ≤ 1 := by
  have hg : gradsAfterLine100 1 [3, 4] = [3, 4] := by
    simp [gradsAfterLine100, exhaustedFilterContents, clipGradNorm]
  have h5 : gradNorm [3, 4] = 5 := by
    have hsum : (([3, 4] : List ℝ).map (fun x => x * x)).sum = 25 := by
      norm_num
    rw [gradNorm, hsum, show (25 : ℝ) = 5 ^ 2 by norm_num,
      Real.sqrt_sq (by norm_num : (0 : ℝ) ≤ 5)]
  refine ⟨hg, h5, ?_, clipped_grad_norm_le 1 [3, 4] zero_le_one⟩
  rw [hg, h5]
  norm_num

end SanTrain
